import Mathlib

/-!
Shallow embedding of the Go package `mealy` (file `src/mealy/machine.go`,
observable revision): a deterministic Mealy machine with a transition table,
safe/unsafe stepping, reset, an observer hook and a Mermaid diagram export.

Go string types `MachineState`, `Action`, `Output` are embedded as `String`.
Go maps (`map[MachineState]map[Action]Transition`) are embedded as
association lists with first-match lookup; Go map insertion replaces the
entry of an existing key and otherwise extends the map. The mutex is not
modelled (all embedded operations are sequential functions); a Go `panic`
is modelled as an explicit `Outcome.panicked` result, and the Go `nil`
observer interface as the constructor `MachineObserver.nilObserver`, whose
method dispatch fails (a nil-pointer dereference).
-/

namespace Mealy

/-- Embeds Go `Transition` (fields `Action`, `FromState`, `ToState`, `Output`). -/
structure Transition where
  Action : String
  FromState : String
  ToState : String
  Output : String
deriving DecidableEq, Repr

/-- Embeds Go `Transition.Validate`: `some msg` stands for returning the
error with message `msg`, `none` for returning `nil`. -/
def Transition.Validate (t : Transition) : Option String :=
  if t.Action = "" then some "action cannot be empty"
  else if t.FromState = "" then some "from state cannot be empty"
  else if t.ToState = "" then some "to state cannot be empty"
  else if t.Output = "" then some "output cannot be empty"
  else none

/-- Embeds Go `Transition.CanStep`. -/
def Transition.CanStep (t : Transition) (action : String) (fromState : String) : Bool :=
  t.Action == action && t.FromState == fromState

/-- First-match association-list lookup: the embedding of Go map indexing
`m[key]` with its `ok` flag (`some v` when the key is present). -/
def lookupA {β : Type} : List (String × β) → String → Option β
  | [], _ => none
  | (k, v) :: rest, key => if k = key then some v else lookupA rest key

/-- Embeds Go `Behavior`: `map[MachineState]map[Action]Transition`. -/
abbrev Behavior := List (String × List (String × Transition))

/-- The nested lookup `behavior[state][action]` as Go `Step`/`CanStep`
perform it: first the outer key, then the action in the inner map. -/
def Behavior.find (b : Behavior) (s : String) (a : String) : Option Transition :=
  match lookupA b s with
  | some inner => lookupA inner a
  | none => none

/-- Embeds Go `MachineTransitionEvent`. -/
structure MachineTransitionEvent where
  Action : String
  FromState : String
  ToState : String
  Output : String
deriving DecidableEq, Repr

/-- Embeds the Go `MachineObserver` interface value held by a machine:
`nilObserver` is the `nil` interface value, `noopObserver` the package's
no-op default, and `collector log` an observer that has recorded the events
`log` (the shape of the recording observers in `machine_test.go`). -/
inductive MachineObserver where
  | nilObserver : MachineObserver
  | noopObserver : MachineObserver
  | collector : List MachineTransitionEvent → MachineObserver
deriving DecidableEq, Repr

/-- Dispatching `observer.OnTransition(event)`: `none` models the Go panic
(nil-pointer dereference) when the interface value is `nil`; otherwise the
observer after the call.  `noopObserver.OnTransition` does nothing; a
`collector` appends the event to its record. -/
def MachineObserver.OnTransition : MachineObserver → MachineTransitionEvent →
    Option MachineObserver
  | .nilObserver, _ => none
  | .noopObserver, _ => some .noopObserver
  | .collector log, e => some (.collector (log ++ [e]))

/-- Embeds the Go `machine` struct (the mutex is not modelled). -/
structure Machine where
  name : String
  currentState : String
  behavior : Behavior
  initialState : String
  observer : MachineObserver
deriving DecidableEq, Repr

/-- How a `Step`/`StepUnsafe` call hands back its continuation: Go `Step`
returns `NewContinuation(m)` (a fresh `continuation` struct wrapping the
machine) on a hit and the machine value `m` itself on a miss; both reference
the same machine, whose post-call value the `Outcome` carries. -/
inductive ContKind where
  | newContinuation : ContKind
  | machineItself : ContKind
deriving DecidableEq, Repr

/-- The reason a stepping call panics in Go. -/
inductive PanicReason where
  | errNoTransition : PanicReason
  | nilPointerDereference : PanicReason
deriving DecidableEq, Repr

/-- Result of a `Step` or `StepUnsafe` call: `ret output cont m e` embeds a
normal return with output `output`, continuation kind `cont`, the machine's
post-call value `m` and `e = true` exactly when the returned error is
`ErrNoTransition`; `panicked r m` embeds a Go panic with reason `r`, the
machine left in state `m`. -/
inductive Outcome where
  | ret : String → ContKind → Machine → Bool → Outcome
  | panicked : PanicReason → Machine → Outcome
deriving DecidableEq, Repr

/-- Whether the call returned the sentinel `ErrNoTransition` (a panic is not
an error return). -/
def Outcome.isErrNoTransition : Outcome → Bool
  | .ret _ _ _ e => e
  | .panicked _ _ => false

/-- The machine value after the call (on a panic, the fields mutated before
the panic keep their new values). -/
def Outcome.machineAfter : Outcome → Machine
  | .ret _ _ m _ => m
  | .panicked _ m => m

/-- Embeds Go `machine.Reset`. -/
def Machine.Reset (m : Machine) : Machine :=
  { m with currentState := m.initialState }

/-- Embeds Go `machine.Step`: look up `behavior[currentState][input]`; on a
hit assign `currentState = t.ToState`, call the observer with the event
built from the requested action and the transition's recorded fields, and
return `(t.Output, NewContinuation(m), nil)`; on a miss return
`("", m, ErrNoTransition)`. -/
def Machine.Step (m : Machine) (input : String) : Outcome :=
  match Behavior.find m.behavior m.currentState input with
  | some t =>
      let m1 : Machine := { m with currentState := t.ToState }
      match m1.observer.OnTransition ⟨input, t.FromState, t.ToState, t.Output⟩ with
      | some ob => .ret t.Output .newContinuation { m1 with observer := ob } false
      | none => .panicked .nilPointerDereference m1
  | none => .ret "" .machineItself m true

/-- Embeds Go `machine.StepUnsafe`: as `Step` on a hit; on a miss it panics
with `ErrNoTransition`. -/
def Machine.StepUnsafe (m : Machine) (input : String) : Outcome :=
  match Behavior.find m.behavior m.currentState input with
  | some t =>
      let m1 : Machine := { m with currentState := t.ToState }
      match m1.observer.OnTransition ⟨input, t.FromState, t.ToState, t.Output⟩ with
      | some ob => .ret t.Output .newContinuation { m1 with observer := ob } false
      | none => .panicked .nilPointerDereference m1
  | none => .panicked .errNoTransition m

/-- Embeds Go `machine.CanStep` (a read-only query: it takes the machine and
returns only a Bool, mutating nothing). -/
def Machine.CanStep (m : Machine) (input : String) : Bool :=
  (Behavior.find m.behavior m.currentState input).isSome

/-- Embeds Go `machine.CurrentState`. -/
def Machine.CurrentState (m : Machine) : String :=
  m.currentState

/-- Embeds Go `machine.GetName`. -/
def Machine.GetName (m : Machine) : String :=
  m.name

/-- Embeds Go `machine.GetOutput`. -/
def Machine.GetOutput (m : Machine) : String :=
  m.currentState

/-- Inner-map insertion `behavior[from][action] = t`: Go map assignment
replaces the entry of an existing key and otherwise adds the key. -/
def insertInner (inner : List (String × Transition)) (a : String) (t : Transition) :
    List (String × Transition) :=
  match inner with
  | [] => [(a, t)]
  | (k, v) :: rest => if k = a then (a, t) :: rest else (k, v) :: insertInner rest a t

/-- Embeds the Go assignment `behavior[t.FromState][t.Action] = t` together
with the preceding `make` of the inner map when the outer key is absent. -/
def behaviorInsert (b : Behavior) (s : String) (a : String) (t : Transition) : Behavior :=
  match b with
  | [] => [(s, [(a, t)])]
  | (k, inner) :: rest =>
      if k = s then (s, insertInner inner a t) :: rest
      else (k, inner) :: behaviorInsert rest s a t

/-- The loop body of Go `buildBehavior`, processing the remaining transitions
with `behavior` the table built so far: validate, check for a duplicate
`(FromState, Action)` entry, insert. -/
def buildBehaviorAux (behavior : Behavior) : List Transition → Except String Behavior
  | [] => .ok behavior
  | t :: rest =>
      match t.Validate with
      | some msg => .error ("invalid transition: " ++ msg)
      | none =>
          if (Behavior.find behavior t.FromState t.Action).isSome then
            .error ("duplicate transition for action " ++ t.Action ++
              " from state " ++ t.FromState)
          else
            buildBehaviorAux (behaviorInsert behavior t.FromState t.Action t) rest

/-- Embeds Go `buildBehavior`. -/
def buildBehavior (transitions : List Transition) : Except String Behavior :=
  buildBehaviorAux [] transitions

/-- Embeds Go `NewObservableMachine`: the checks in source order, first
failure winning. -/
def NewObservableMachine (name : String) (initialState : String)
    (transitions : List Transition) (observer : MachineObserver) :
    Except String Machine :=
  if name = "" then .error "machine name cannot be empty"
  else if initialState = "" then .error "initial state cannot be empty"
  else if transitions.length = 0 then .error "transitions cannot be empty"
  else
    match buildBehavior transitions with
    | .error e => .error e
    | .ok behavior =>
        match lookupA behavior initialState with
        | none => .error ("initial state " ++ initialState ++ " not found in behavior")
        | some _ =>
            .ok { name := name, currentState := initialState,
                  initialState := initialState, behavior := behavior,
                  observer := observer }

/-- Embeds Go `NewMachine`: delegates to `NewObservableMachine` with the
no-op default observer. -/
def NewMachine (name : String) (initialState : String)
    (transitions : List Transition) : Except String Machine :=
  NewObservableMachine name initialState transitions .noopObserver

/-- A sequence of `Step` calls, each required to succeed (return a `nil`
error): `some` of the machine after the last step, `none` when some step
missed or panicked. -/
def Machine.runSteps (m : Machine) : List String → Option Machine
  | [] => some m
  | a :: rest =>
      match m.Step a with
      | .ret _ _ m' false => Machine.runSteps m' rest
      | _ => none

/-- One call of the machine's mutating API, for stating invariants over
every reachable machine. -/
inductive MachineOp where
  | step : String → MachineOp
  | stepUnsafe : String → MachineOp
  | reset : MachineOp
deriving DecidableEq, Repr

/-- The machine value after one API call (panics included, since a Go panic
leaves the already-performed field assignment in place). -/
def Machine.applyOp (m : Machine) : MachineOp → Machine
  | .step a => (m.Step a).machineAfter
  | .stepUnsafe a => (m.StepUnsafe a).machineAfter
  | .reset => m.Reset

/-- The machine after a sequence of API calls. -/
def Machine.runOps (m : Machine) (ops : List MachineOp) : Machine :=
  ops.foldl Machine.applyOp m

/-- The states appearing in a behavior table: each outer key (a from-state)
and the `ToState` of each stored transition. -/
def statesOf : Behavior → List String
  | [] => []
  | (s, inner) :: rest => s :: (inner.map fun q => q.2.ToState) ++ statesOf rest

/-- Appending one `action -> output` entry under a key of the Go
`map[string][]string` level of `transitionMap` (Go `append` on the slice of
an existing key, a fresh one-element slice otherwise). -/
def appendEntry (l : List (String × List String)) (k : String) (v : String) :
    List (String × List String) :=
  match l with
  | [] => [(k, [v])]
  | (k', vs) :: rest =>
      if k' = k then (k, vs ++ [v]) :: rest else (k', vs) :: appendEntry rest k v

/-- Embeds Go `transitionMap`: `map[string]map[string][]string`, from-state
to to-state to the `action -> output` labels. -/
abbrev TransitionMap := List (String × List (String × List String))

/-- `transitionMap[from][to] = append(transitionMap[from][to], entry)` with
the `make` of the inner map when `from` is absent. -/
def tmapInsert (tm : TransitionMap) (f : String) (t : String) (e : String) :
    TransitionMap :=
  match tm with
  | [] => [(f, [(t, [e])])]
  | (k, inner) :: rest =>
      if k = f then (f, appendEntry inner t e) :: rest
      else (k, inner) :: tmapInsert rest f t e

/-- The grouping loop's input, read off the behavior table in iteration
order: one `(fromState, toState, "action -> output")` triple per stored
transition. -/
def rawEdges : Behavior → List (String × String × String)
  | [] => []
  | (f, inner) :: rest =>
      (inner.map fun q => (f, q.2.ToState, q.1 ++ " -> " ++ q.2.Output)) ++ rawEdges rest

/-- Embeds the grouping loop of Go `ToMermaid`, building `transitionMap`. -/
def buildTransitionMap (b : Behavior) : TransitionMap :=
  (rawEdges b).foldl (fun tm e => tmapInsert tm e.1 e.2.1 e.2.2) []

/-- Embeds the output loop of Go `ToMermaid`: one line per `(from, to)` entry
of `transitionMap`, its label the comma-joined entries. -/
def renderEdges (tm : TransitionMap) : String :=
  String.join (tm.map fun p =>
    String.join (p.2.map fun q =>
      "    " ++ p.1 ++ " --> " ++ q.1 ++ " : " ++ String.intercalate ", " q.2 ++ "\n"))

/-- Embeds Go `machine.ToMermaid`. -/
def Machine.ToMermaid (m : Machine) : String :=
  let titleString := "---\ntitle: " ++ m.GetName ++ "\n---\n"
  let result := titleString ++ " stateDiagram-v2\n"
  let result := result ++ "    [*] --> " ++ m.initialState ++ "\n"
  result ++ renderEdges (buildTransitionMap m.behavior)

/-- The `(fromState, toState)` pair of each edge line `ToMermaid` emits, in
emission order. -/
def tmapPairs (tm : TransitionMap) : List (String × String) :=
  match tm with
  | [] => []
  | (f, inner) :: rest => (inner.map fun q => (f, q.1)) ++ tmapPairs rest

/-- Every `(fromState, toState, entry)` triple held by `transitionMap`, one
per label entry of each edge line. -/
def tmapTriples (tm : TransitionMap) : List (String × String × String) :=
  match tm with
  | [] => []
  | (f, inner) :: rest =>
      (inner.flatMap fun q => q.2.map fun e => (f, q.1, e)) ++ tmapTriples rest

/-- The `(FromState, Action)` key a transition is filed under. -/
def pairOf (t : Transition) : String × String :=
  (t.FromState, t.Action)

/-- Whether construction returned a machine rather than an error. -/
def isOk {ε α : Type} : Except ε α → Bool
  | .ok _ => true
  | .error _ => false

/-- A concrete transition `(a, s1, s2, o1)` used to evaluate the theorems. -/
def exT1 : Transition := ⟨"a", "s1", "s2", "o1"⟩

/-- A concrete transition `(b, s2, s1, o2)`. -/
def exT2 : Transition := ⟨"b", "s2", "s1", "o2"⟩

/-- A concrete transition list. -/
def exTransitions : List Transition := [exT1, exT2]

/-- The machine `NewObservableMachine "M" "s1" exTransitions` yields when
given a recording observer with an empty record. -/
def exMachine : Machine :=
  { name := "M", currentState := "s1", initialState := "s1",
    behavior := [("s1", [("a", exT1)]), ("s2", [("b", exT2)])],
    observer := .collector [] }

/-- `exMachine` after the successful call `Step "a"`. -/
def exStepped : Machine :=
  { exMachine with
    currentState := "s2",
    observer := .collector [⟨"a", "s1", "s2", "o1"⟩] }

/-- `exMachine` built with a nil observer instead. -/
def nilMachine : Machine :=
  { exMachine with observer := .nilObserver }

/-- A machine with two transitions sharing from- and to-state, the spec's
diagram-grouping example. -/
def exGroup : Machine :=
  { name := "M", currentState := "S1", initialState := "S1",
    behavior := [("S1", [("x", ⟨"x", "S1", "S1", "o1"⟩),
                         ("y", ⟨"y", "S1", "S1", "o2"⟩)])],
    observer := .noopObserver }

/-- C1: when a transition exists for `(currentState, action)`, `Step`
advances `currentState` to its `ToState`, notifies the observer exactly once
(the recording observer's record grows by exactly the one event carrying the
requested action and the transition's recorded from-state, to-state and
output), and returns the transition's output, a fresh continuation
referencing the same machine, and no error. -/
theorem step_hit_spec (m : Machine) (a : String) (t : Transition)
    (log : List MachineTransitionEvent)
    (hobs : m.observer = .collector log)
    (hfind : Behavior.find m.behavior m.currentState a = some t) :
    m.Step a = Outcome.ret t.Output ContKind.newContinuation
      { m with
        currentState := t.ToState,
        observer := .collector (log ++ [⟨a, t.FromState, t.ToState, t.Output⟩]) }
      false := by
  simp only [Machine.Step, hfind, hobs, MachineObserver.OnTransition]

/-- Witness for C1 at the concrete machine `exMachine`: stepping on `"a"`
from state `s1` yields output `o1`, state `s2` and the one recorded event. -/
theorem step_hit_spec_witness :
    exMachine.Step "a" = Outcome.ret "o1" ContKind.newContinuation exStepped false :=
  step_hit_spec exMachine "a" exT1 [] rfl rfl

/-- C2: `Step` returns the sentinel `ErrNoTransition` exactly when no
transition exists for `(currentState, action)`, equivalently exactly when
`CanStep` is false; on such a miss the call returns an empty output and the
machine itself as the continuation and leaves the machine (state and
observer record alike) unchanged.  `CanStep` is a pure read: it returns only
a Bool computed from the machine. -/
theorem step_miss_spec (m : Machine) (a : String) :
    ((m.Step a).isErrNoTransition = true ↔
        Behavior.find m.behavior m.currentState a = none)
    ∧ (m.CanStep a = true ↔ ∃ t, Behavior.find m.behavior m.currentState a = some t)
    ∧ (m.CanStep a = false → m.Step a = Outcome.ret "" ContKind.machineItself m true) := by
  refine ⟨?_, ?_, ?_⟩
  · cases hf : Behavior.find m.behavior m.currentState a with
    | none => simp [Machine.Step, Outcome.isErrNoTransition, hf]
    | some t =>
        cases ho : m.observer.OnTransition ⟨a, t.FromState, t.ToState, t.Output⟩ <;>
          simp [Machine.Step, Outcome.isErrNoTransition, hf, ho]
  · cases hf : Behavior.find m.behavior m.currentState a <;>
      simp [Machine.CanStep, hf]
  · intro hmiss
    cases hf : Behavior.find m.behavior m.currentState a with
    | none => simp [Machine.Step, hf]
    | some t =>
        rw [Machine.CanStep, hf] at hmiss
        simp at hmiss

/-- C5: `StepUnsafe` agrees with `Step` whenever a transition exists for
`(currentState, action)` (the very same outcome: output, continuation,
machine mutation and observer effect); when none exists it panics with
`ErrNoTransition`, the machine untouched, instead of returning an error
value. -/
theorem stepUnsafe_spec (m : Machine) (a : String) :
    (∀ t, Behavior.find m.behavior m.currentState a = some t →
        m.StepUnsafe a = m.Step a)
    ∧ (Behavior.find m.behavior m.currentState a = none →
        m.StepUnsafe a = Outcome.panicked PanicReason.errNoTransition m) := by
  constructor
  · intro t hf
    simp only [Machine.StepUnsafe, Machine.Step, hf]
  · intro hf
    simp only [Machine.StepUnsafe, hf]

/-- Witness for C5 at `exMachine`: on the hit `"a"` the two stepping forms
agree, and on the miss `"zzz"` `StepUnsafe` panics with `ErrNoTransition`. -/
theorem stepUnsafe_spec_witness :
    exMachine.StepUnsafe "a" = exMachine.Step "a"
    ∧ exMachine.StepUnsafe "zzz" =
        Outcome.panicked PanicReason.errNoTransition exMachine :=
  ⟨(stepUnsafe_spec exMachine "a").1 exT1 rfl, (stepUnsafe_spec exMachine "zzz").2 rfl⟩

/-- C8: `Validate` checks the four fields in the order action, from-state,
to-state, output, failing with the field-specific message at the first empty
field whatever the other fields hold, and succeeds when all four fields are
non-empty. -/
theorem validate_spec (t : Transition) :
    (t.Action = "" → t.Validate = some "action cannot be empty")
    ∧ (t.Action ≠ "" → t.FromState = "" →
        t.Validate = some "from state cannot be empty")
    ∧ (t.Action ≠ "" → t.FromState ≠ "" → t.ToState = "" →
        t.Validate = some "to state cannot be empty")
    ∧ (t.Action ≠ "" → t.FromState ≠ "" → t.ToState ≠ "" → t.Output = "" →
        t.Validate = some "output cannot be empty")
    ∧ (t.Action ≠ "" → t.FromState ≠ "" → t.ToState ≠ "" → t.Output ≠ "" →
        t.Validate = none) := by
  refine ⟨?_, ?_, ?_, ?_, ?_⟩
  · intro h1
    simp [Transition.Validate, h1]
  · intro h1 h2
    simp [Transition.Validate, h1, h2]
  · intro h1 h2 h3
    simp [Transition.Validate, h1, h2, h3]
  · intro h1 h2 h3 h4
    simp [Transition.Validate, h1, h2, h3, h4]
  · intro h1 h2 h3 h4
    simp [Transition.Validate, h1, h2, h3, h4]

/-- What holds of the machine a successful construction returns: it starts
in the supplied initial state, carries the built behavior table (whose keys
include that state) and the supplied observer. -/
theorem construction_ok_fields (name : String) (init : String) (ts : List Transition)
    (obs : MachineObserver) (m : Machine)
    (h : NewObservableMachine name init ts obs = .ok m) :
    m.currentState = init ∧ m.initialState = init ∧ m.name = name
    ∧ m.observer = obs ∧ buildBehavior ts = .ok m.behavior
    ∧ (lookupA m.behavior init).isSome = true := by
  unfold NewObservableMachine at h
  split at h
  · simp at h
  · split at h
    · simp at h
    · split at h
      · simp at h
      · split at h
        · simp at h
        · rename_i behavior hbb
          split at h
          · simp at h
          · rename_i v hv
            cases h
            exact ⟨rfl, rfl, rfl, rfl, hbb, by simp [hv]⟩

/-- C4: machine construction checks, in order with the first failure
winning: non-empty name, non-empty initial state, non-empty transition
list, a behavior table that builds, and an initial state present in the
built table; on success the machine starts in the initial state, carries
the built table and the supplied observer, and `NewMachine` supplies the
no-op default observer. -/
theorem newObservableMachine_spec :
    (∀ init ts obs, NewObservableMachine "" init ts obs =
        .error "machine name cannot be empty")
    ∧ (∀ name ts obs, name ≠ "" → NewObservableMachine name "" ts obs =
        .error "initial state cannot be empty")
    ∧ (∀ name init obs, name ≠ "" → init ≠ "" → NewObservableMachine name init [] obs =
        .error "transitions cannot be empty")
    ∧ (∀ name init ts obs e, name ≠ "" → init ≠ "" → buildBehavior ts = .error e →
        NewObservableMachine name init ts obs = .error e)
    ∧ (∀ name init ts obs b, name ≠ "" → init ≠ "" → ts ≠ [] →
        buildBehavior ts = .ok b → lookupA b init = none →
        NewObservableMachine name init ts obs =
          .error ("initial state " ++ init ++ " not found in behavior"))
    ∧ (∀ name init ts obs m, NewObservableMachine name init ts obs = .ok m →
        m.currentState = init ∧ m.initialState = init ∧ m.name = name
        ∧ m.observer = obs ∧ buildBehavior ts = .ok m.behavior
        ∧ (lookupA m.behavior init).isSome = true)
    ∧ (∀ name init ts, NewMachine name init ts =
        NewObservableMachine name init ts MachineObserver.noopObserver) := by
  refine ⟨?_, ?_, ?_, ?_, ?_, ?_, fun _ _ _ => rfl⟩
  · intro init ts obs
    simp [NewObservableMachine]
  · intro name ts obs h1
    simp [NewObservableMachine, h1]
  · intro name init obs h1 h2
    simp [NewObservableMachine, h1, h2]
  · intro name init ts obs e h1 h2 herr
    have hts : ts ≠ [] := by
      intro hnil
      rw [hnil] at herr
      simp [buildBehavior, buildBehaviorAux] at herr
    simp [NewObservableMachine, h1, h2, List.length_eq_zero, hts, herr]
  · intro name init ts obs b h1 h2 hts hok hlk
    simp [NewObservableMachine, h1, h2, List.length_eq_zero, hts, hok, hlk]
  · intro name init ts obs m h
    exact construction_ok_fields name init ts obs m h

/-- The machine left behind by a `Step` call keeps its `initialState` (and
its name and behavior table): only `currentState` and the observer change. -/
theorem step_machineAfter_frame (m : Machine) (a : String) :
    ((m.Step a).machineAfter).initialState = m.initialState
    ∧ ((m.Step a).machineAfter).name = m.name
    ∧ ((m.Step a).machineAfter).behavior = m.behavior := by
  cases hf : Behavior.find m.behavior m.currentState a with
  | none => simp [Machine.Step, Outcome.machineAfter, hf]
  | some t =>
      cases ho : m.observer.OnTransition ⟨a, t.FromState, t.ToState, t.Output⟩ <;>
        simp [Machine.Step, Outcome.machineAfter, hf, ho]

/-- A sequence of successful `Step` calls never changes `initialState`. -/
theorem runSteps_initialState (acts : List String) :
    ∀ m m' : Machine, m.runSteps acts = some m' → m'.initialState = m.initialState := by
  induction acts with
  | nil =>
      intro m m' h
      simp [Machine.runSteps] at h
      rw [h]
  | cons a rest ih =>
      intro m m' h
      simp only [Machine.runSteps] at h
      cases hs : m.Step a with
      | ret o c m1 e =>
          rw [hs] at h
          cases e with
          | false =>
              have h1 : m1.initialState = m.initialState := by
                have := (step_machineAfter_frame m a).1
                rw [hs] at this
                exact this
              rw [ih m1 m' h, h1]
          | true => simp at h
      | panicked r m1 =>
          rw [hs] at h
          simp at h

/-- C6: after any sequence of successful steps, `Reset` sets `currentState`
back to the machine's original initial state, changes no other field, and
leaves the observer (hence its event record) untouched: a reset produces no
event. -/
theorem reset_spec (m : Machine) (acts : List String) (m' : Machine)
    (h : m.runSteps acts = some m') :
    m'.Reset.currentState = m.initialState
    ∧ m'.Reset.name = m'.name
    ∧ m'.Reset.initialState = m'.initialState
    ∧ m'.Reset.behavior = m'.behavior
    ∧ m'.Reset.observer = m'.observer := by
  refine ⟨?_, rfl, rfl, rfl, rfl⟩
  show m'.initialState = m.initialState
  exact runSteps_initialState acts m m' h

/-- Witness for C6: after the successful step `"a"` on `exMachine`, reset
restores the original initial state `s1` and keeps the observer record. -/
theorem reset_spec_witness :
    exStepped.Reset.currentState = exMachine.initialState
    ∧ exStepped.Reset.observer = exStepped.observer :=
  ⟨(reset_spec exMachine ["a"] exStepped (by rfl)).1,
   (reset_spec exMachine ["a"] exStepped (by rfl)).2.2.2.2⟩

/-- Looking up the inner map after `insertInner`: the inserted key now maps
to the inserted transition, every other key is untouched. -/
theorem lookupA_insertInner (inner : List (String × Transition)) (a : String)
    (t : Transition) (a' : String) :
    lookupA (insertInner inner a t) a' = if a = a' then some t else lookupA inner a' := by
  induction inner with
  | nil => simp [insertInner, lookupA]
  | cons p rest ih =>
      obtain ⟨k, v⟩ := p
      by_cases hk : k = a
      · subst hk
        simp only [insertInner, if_pos rfl, lookupA]
        split <;> simp_all [lookupA]
      · simp only [insertInner, if_neg hk, lookupA]
        by_cases hk' : k = a'
        · subst hk'
          have : ¬(a = k) := fun h => hk h.symm
          simp [this]
        · simp [hk', ih]

/-- Looking up the behavior table after `behaviorInsert`: the inserted
`(fromState, action)` key now maps to the inserted transition, every other
key is untouched. -/
theorem find_behaviorInsert (b : Behavior) (s : String) (a : String) (t : Transition)
    (s' : String) (a' : String) :
    Behavior.find (behaviorInsert b s a t) s' a' =
      if s = s' ∧ a = a' then some t else Behavior.find b s' a' := by
  induction b with
  | nil =>
      simp only [behaviorInsert, Behavior.find, lookupA]
      by_cases hs : s = s'
      · subst hs
        simp only [if_pos rfl]
        by_cases ha : a = a' <;> simp [ha, lookupA]
      · simp [hs]
  | cons p rest ih =>
      obtain ⟨k, inner⟩ := p
      by_cases hk : k = s
      · subst hk
        simp only [behaviorInsert, if_pos rfl, Behavior.find, lookupA]
        by_cases hs : k = s'
        · subst hs
          simp [lookupA_insertInner]
        · simp only [if_neg hs]
          have : ¬(k = s' ∧ a = a') := fun h => hs h.1
          simp only [if_neg this]
      · simp only [behaviorInsert, if_neg hk, Behavior.find, lookupA]
        by_cases hk' : k = s'
        · subst hk'
          have : ¬(s = k ∧ a = a') := fun h => hk h.1.symm
          simp [this]
        · simp only [if_neg hk']
          exact ih

/-- When the construction loop succeeds on the remaining transitions, none
of them is already filed in the table built so far. -/
theorem aux_ok_not_mem (ts : List Transition) :
    ∀ acc b, buildBehaviorAux acc ts = .ok b →
      ∀ t' ∈ ts, Behavior.find acc t'.FromState t'.Action = none := by
  induction ts with
  | nil =>
      intro acc b _ t' ht'
      simp at ht'
  | cons t rest ih =>
      intro acc b h t' ht'
      simp only [buildBehaviorAux] at h
      cases hv : t.Validate with
      | some msg =>
          rw [hv] at h
          simp at h
      | none =>
          rw [hv] at h
          by_cases hdup : (Behavior.find acc t.FromState t.Action).isSome = true
          · rw [if_pos hdup] at h
            simp at h
          · rw [if_neg hdup] at h
            rcases List.mem_cons.mp ht' with heq | hmem
            · subst heq
              exact Option.not_isSome_iff_eq_none.mp hdup
            · have h2 := ih (behaviorInsert acc t.FromState t.Action t) b h t' hmem
              rw [find_behaviorInsert] at h2
              by_cases hpa : t.FromState = t'.FromState ∧ t.Action = t'.Action
              · rw [if_pos hpa] at h2
                exact absurd h2 (by simp)
              · rw [if_neg hpa] at h2
                exact h2

/-- When the construction loop succeeds, no two processed transitions share
their `(FromState, Action)` key. -/
theorem aux_ok_pairwise (ts : List Transition) :
    ∀ acc b, buildBehaviorAux acc ts = .ok b →
      ts.Pairwise (fun t₁ t₂ => pairOf t₁ ≠ pairOf t₂) := by
  induction ts with
  | nil =>
      intro acc b _
      simp
  | cons t rest ih =>
      intro acc b h
      simp only [buildBehaviorAux] at h
      cases hv : t.Validate with
      | some msg =>
          rw [hv] at h
          simp at h
      | none =>
          rw [hv] at h
          by_cases hdup : (Behavior.find acc t.FromState t.Action).isSome = true
          · rw [if_pos hdup] at h
            simp at h
          · rw [if_neg hdup] at h
            constructor
            · intro t' hmem heq
              have h2 := aux_ok_not_mem rest (behaviorInsert acc t.FromState t.Action t)
                b h t' hmem
              rw [find_behaviorInsert] at h2
              have hpa : t.FromState = t'.FromState ∧ t.Action = t'.Action := by
                have h1 := congrArg Prod.fst heq
                have hsnd := congrArg Prod.snd heq
                exact ⟨h1, hsnd⟩
              rw [if_pos hpa] at h2
              simp at h2
            · exact ih _ b h

/-- C3: `buildBehavior` walks the input in order; a transition failing
validation aborts with the wrapped `invalid transition: <reason>` error, a
transition whose `(FromState, Action)` key is already in the table aborts
with the duplicate error naming the action and state, and any input list
containing two entries sharing that key fails to build, whatever the order
of the list. -/
theorem buildBehavior_spec :
    (∀ acc t rest msg, Transition.Validate t = some msg →
        buildBehaviorAux acc (t :: rest) = .error ("invalid transition: " ++ msg))
    ∧ (∀ acc t rest, Transition.Validate t = none →
        (Behavior.find acc t.FromState t.Action).isSome = true →
        buildBehaviorAux acc (t :: rest) =
          .error ("duplicate transition for action " ++ t.Action ++
            " from state " ++ t.FromState))
    ∧ (∀ ts : List Transition,
        (∃ i j, ∃ hi : i < ts.length, ∃ hj : j < ts.length, i ≠ j ∧
          pairOf (ts.get ⟨i, hi⟩) = pairOf (ts.get ⟨j, hj⟩)) →
        ∃ e, buildBehavior ts = .error e) := by
  refine ⟨?_, ?_, ?_⟩
  · intro acc t rest msg hv
    simp [buildBehaviorAux, hv]
  · intro acc t rest hv hdup
    simp [buildBehaviorAux, hv, hdup]
  · intro ts hdup
    cases hbb : buildBehavior ts with
    | error e => exact ⟨e, rfl⟩
    | ok b =>
        exfalso
        obtain ⟨i, j, hi, hj, hne, heq⟩ := hdup
        have hp := aux_ok_pairwise ts [] b hbb
        rw [List.pairwise_iff_get] at hp
        rcases Nat.lt_or_ge i j with hij | hge
        · exact hp ⟨i, hi⟩ ⟨j, hj⟩ hij heq
        · have hji : j < i := Nat.lt_of_le_of_ne hge (fun h => hne h.symm)
          exact hp ⟨j, hj⟩ ⟨i, hi⟩ hji heq.symm

/-- A key found by `lookupA` is a pair of the list. -/
theorem lookupA_mem {β : Type} (l : List (String × β)) (key : String) (v : β) :
    lookupA l key = some v → (key, v) ∈ l := by
  induction l with
  | nil =>
      intro h
      simp [lookupA] at h
  | cons p rest ih =>
      obtain ⟨k, w⟩ := p
      intro h
      simp only [lookupA] at h
      by_cases hk : k = key
      · rw [if_pos hk] at h
        cases h
        subst hk
        exact List.mem_cons_self _ _
      · rw [if_neg hk] at h
        exact List.mem_cons_of_mem _ (ih h)

/-- An outer key of the behavior table is one of the states appearing in
the table. -/
theorem lookupA_key_mem_statesOf (b : Behavior) (s : String)
    (inner : List (String × Transition)) (h : lookupA b s = some inner) :
    s ∈ statesOf b := by
  induction b with
  | nil => simp [lookupA] at h
  | cons p rest ih =>
      obtain ⟨k, inn⟩ := p
      simp only [lookupA] at h
      by_cases hk : k = s
      · subst hk
        simp [statesOf]
      · rw [if_neg hk] at h
        simp [statesOf, ih h]

/-- The `ToState` of a stored transition is one of the states appearing in
the table. -/
theorem find_toState_mem (b : Behavior) (s : String) (a : String) (t : Transition)
    (h : Behavior.find b s a = some t) : t.ToState ∈ statesOf b := by
  induction b with
  | nil => simp [Behavior.find, lookupA] at h
  | cons p rest ih =>
      obtain ⟨k, inn⟩ := p
      simp only [Behavior.find, lookupA] at h
      by_cases hk : k = s
      · rw [if_pos hk] at h
        have hmem : (a, t) ∈ inn := lookupA_mem inn a t h
        have : t.ToState ∈ inn.map fun q => q.2.ToState :=
          List.mem_map.mpr ⟨(a, t), hmem, rfl⟩
        simp [statesOf, this]
      · rw [if_neg hk] at h
        have : t.ToState ∈ statesOf rest := by
          apply ih
          simpa [Behavior.find] using h
        simp [statesOf, this]

/-- One API call keeps `currentState` and `initialState` among the states
appearing in the (unchanged) behavior table. -/
theorem applyOp_inv (m : Machine) (op : MachineOp)
    (h1 : m.currentState ∈ statesOf m.behavior)
    (h2 : m.initialState ∈ statesOf m.behavior) :
    (m.applyOp op).currentState ∈ statesOf (m.applyOp op).behavior
    ∧ (m.applyOp op).initialState ∈ statesOf (m.applyOp op).behavior := by
  cases op with
  | reset => exact ⟨h2, h2⟩
  | step a =>
      cases hf : Behavior.find m.behavior m.currentState a with
      | none =>
          simp only [Machine.applyOp, Machine.Step, hf, Outcome.machineAfter]
          exact ⟨h1, h2⟩
      | some t =>
          have ht := find_toState_mem m.behavior m.currentState a t hf
          cases ho : m.observer.OnTransition ⟨a, t.FromState, t.ToState, t.Output⟩ <;>
            · simp only [Machine.applyOp, Machine.Step, hf, ho, Outcome.machineAfter]
              exact ⟨ht, h2⟩
  | stepUnsafe a =>
      cases hf : Behavior.find m.behavior m.currentState a with
      | none =>
          simp only [Machine.applyOp, Machine.StepUnsafe, hf, Outcome.machineAfter]
          exact ⟨h1, h2⟩
      | some t =>
          have ht := find_toState_mem m.behavior m.currentState a t hf
          cases ho : m.observer.OnTransition ⟨a, t.FromState, t.ToState, t.Output⟩ <;>
            · simp only [Machine.applyOp, Machine.StepUnsafe, hf, ho, Outcome.machineAfter]
              exact ⟨ht, h2⟩

/-- Any sequence of API calls keeps `currentState` and `initialState` among
the states appearing in the behavior table. -/
theorem runOps_inv (ops : List MachineOp) :
    ∀ m : Machine, m.currentState ∈ statesOf m.behavior →
      m.initialState ∈ statesOf m.behavior →
      (m.runOps ops).currentState ∈ statesOf (m.runOps ops).behavior
      ∧ (m.runOps ops).initialState ∈ statesOf (m.runOps ops).behavior := by
  induction ops with
  | nil => exact fun m h1 h2 => ⟨h1, h2⟩
  | cons op rest ih =>
      intro m h1 h2
      have h := applyOp_inv m op h1 h2
      simpa [Machine.runOps, List.foldl] using ih (m.applyOp op) h.1 h.2

/-- C7: every machine reachable from construction by `Step`, `StepUnsafe`
and `Reset` calls has its `currentState` among the states appearing in the
behavior table. -/
theorem currentState_in_table (name : String) (init : String) (ts : List Transition)
    (obs : MachineObserver) (m : Machine) (ops : List MachineOp)
    (h : NewObservableMachine name init ts obs = .ok m) :
    (m.runOps ops).currentState ∈ statesOf (m.runOps ops).behavior := by
  obtain ⟨hc, hi, _, _, _, hlk⟩ := construction_ok_fields name init ts obs m h
  obtain ⟨inner, hinner⟩ := Option.isSome_iff_exists.mp hlk
  have hinit : init ∈ statesOf m.behavior :=
    lookupA_key_mem_statesOf m.behavior init inner hinner
  exact (runOps_inv ops m (by rw [hc]; exact hinit) (by rw [hi]; exact hinit)).1

/-- Witness for C7 at `exMachine` with a step and a reset. -/
theorem currentState_in_table_witness :
    (exMachine.runOps [MachineOp.step "a", MachineOp.reset]).currentState ∈
      statesOf (exMachine.runOps [MachineOp.step "a", MachineOp.reset]).behavior :=
  currentState_in_table "M" "s1" exTransitions (.collector []) exMachine
    [MachineOp.step "a", MachineOp.reset] (by rfl)

/-- C10: construction performs no check on the supplied observer: with the
nil observer it succeeds exactly when it would with the default one, handing
back a machine holding the nil observer; and every subsequent `Step` or
`StepUnsafe` that finds a transition panics with a nil-pointer dereference
when it invokes the nil observer's `OnTransition`, the state mutation
already applied. -/
theorem nil_observer_spec :
    (∀ name init ts m, NewObservableMachine name init ts MachineObserver.nilObserver = .ok m →
        m.observer = MachineObserver.nilObserver)
    ∧ (∀ name init ts, isOk (NewObservableMachine name init ts MachineObserver.nilObserver) =
        isOk (NewObservableMachine name init ts MachineObserver.noopObserver))
    ∧ (∀ (m : Machine) (a : String) (t : Transition),
        m.observer = MachineObserver.nilObserver →
        Behavior.find m.behavior m.currentState a = some t →
        m.Step a = Outcome.panicked PanicReason.nilPointerDereference
            { m with currentState := t.ToState }
        ∧ m.StepUnsafe a = Outcome.panicked PanicReason.nilPointerDereference
            { m with currentState := t.ToState }) := by
  refine ⟨?_, ?_, ?_⟩
  · intro name init ts m h
    exact (construction_ok_fields name init ts MachineObserver.nilObserver m h).2.2.2.1
  · intro name init ts
    unfold NewObservableMachine
    by_cases h1 : name = ""
    · simp [h1, isOk]
    · by_cases h2 : init = ""
      · simp [h1, h2, isOk]
      · by_cases h3 : ts.length = 0
        · simp [h1, h2, h3, isOk]
        · cases hbb : buildBehavior ts with
          | error e => simp [h1, h2, h3, hbb, isOk]
          | ok b =>
              cases hlk : lookupA b init <;> simp [h1, h2, h3, hbb, hlk, isOk]
  · intro m a t hobs hf
    constructor
    · simp only [Machine.Step, hf, hobs, MachineObserver.OnTransition]
    · simp only [Machine.StepUnsafe, hf, hobs, MachineObserver.OnTransition]

/-- The key list of the inner grouping map after `appendEntry`: unchanged
when the key was present, extended by the key otherwise. -/
theorem appendEntry_keys (l : List (String × List String)) (k : String) (v : String) :
    (appendEntry l k v).map Prod.fst =
      if k ∈ l.map Prod.fst then l.map Prod.fst else l.map Prod.fst ++ [k] := by
  induction l with
  | nil => simp [appendEntry]
  | cons p rest ih =>
      obtain ⟨k', vs⟩ := p
      by_cases hk : k' = k
      · subst hk
        simp [appendEntry]
      · have hk2 : ¬(k = k') := fun h => hk h.symm
        simp only [appendEntry, if_neg hk, List.map_cons]
        by_cases hm : k ∈ rest.map Prod.fst
        · simp [ih, hm, hk2]
        · simp [ih, hm, hk2]

/-- `appendEntry` keeps the inner key list duplicate-free. -/
theorem appendEntry_keys_nodup (l : List (String × List String)) (k : String) (v : String)
    (h : (l.map Prod.fst).Nodup) : ((appendEntry l k v).map Prod.fst).Nodup := by
  rw [appendEntry_keys]
  split
  · exact h
  · rename_i hmem
    simp [List.nodup_append, h, hmem]

/-- The outer key list of `transitionMap` after `tmapInsert`: unchanged when
the from-state was present, extended by it otherwise. -/
theorem tmapInsert_keys (tm : TransitionMap) (f : String) (t : String) (e : String) :
    (tmapInsert tm f t e).map Prod.fst =
      if f ∈ tm.map Prod.fst then tm.map Prod.fst else tm.map Prod.fst ++ [f] := by
  induction tm with
  | nil => simp [tmapInsert]
  | cons p rest ih =>
      obtain ⟨k, inner⟩ := p
      by_cases hk : k = f
      · subst hk
        simp [tmapInsert]
      · have hk2 : ¬(f = k) := fun h => hk h.symm
        simp only [tmapInsert, if_neg hk, List.map_cons]
        by_cases hm : f ∈ rest.map Prod.fst
        · simp [ih, hm, hk2]
        · simp [ih, hm, hk2]

/-- `tmapInsert` keeps the outer key list duplicate-free. -/
theorem tmapInsert_keys_nodup (tm : TransitionMap) (f : String) (t : String) (e : String)
    (h : (tm.map Prod.fst).Nodup) : ((tmapInsert tm f t e).map Prod.fst).Nodup := by
  rw [tmapInsert_keys]
  split
  · exact h
  · rename_i hmem
    simp [List.nodup_append, h, hmem]

/-- `tmapInsert` keeps every inner key list duplicate-free. -/
theorem tmapInsert_inner_nodup (f : String) (t : String) (e : String) :
    ∀ tm : TransitionMap, (∀ p ∈ tm, (p.2.map Prod.fst).Nodup) →
      ∀ p ∈ tmapInsert tm f t e, (p.2.map Prod.fst).Nodup := by
  intro tm
  induction tm with
  | nil =>
      intro _ p hp
      simp only [tmapInsert, List.mem_singleton] at hp
      subst hp
      simp
  | cons q rest ih =>
      obtain ⟨k, inner⟩ := q
      intro h p hp
      by_cases hk : k = f
      · rw [tmapInsert, if_pos hk] at hp
        rcases List.mem_cons.mp hp with rfl | hmem
        · exact appendEntry_keys_nodup inner t e (h (k, inner) (List.mem_cons_self _ _))
        · exact h p (List.mem_cons_of_mem _ hmem)
      · rw [tmapInsert, if_neg hk] at hp
        rcases List.mem_cons.mp hp with rfl | hmem
        · exact h (k, inner) (List.mem_cons_self _ _)
        · exact ih (fun q hq => h q (List.mem_cons_of_mem _ hq)) p hmem

/-- The from-state of every emitted edge pair is an outer key of
`transitionMap`. -/
theorem tmapPairs_fst_mem : ∀ tm : TransitionMap, ∀ x ∈ tmapPairs tm,
    x.1 ∈ tm.map Prod.fst := by
  intro tm
  induction tm with
  | nil =>
      intro x hx
      simp [tmapPairs] at hx
  | cons q rest ih =>
      obtain ⟨f, inner⟩ := q
      intro x hx
      simp only [tmapPairs] at hx
      rcases List.mem_append.mp hx with hx1 | hx2
      · obtain ⟨y, _, hxy⟩ := List.mem_map.mp hx1
        rw [← hxy]
        simp
      · simp [ih x hx2]

/-- A `transitionMap` whose outer and inner key lists are duplicate-free
emits pairwise distinct `(fromState, toState)` edge pairs. -/
theorem tmapPairs_nodup : ∀ tm : TransitionMap,
    (tm.map Prod.fst).Nodup → (∀ p ∈ tm, (p.2.map Prod.fst).Nodup) →
    (tmapPairs tm).Nodup := by
  intro tm
  induction tm with
  | nil =>
      intro _ _
      simp [tmapPairs]
  | cons q rest ih =>
      obtain ⟨f, inner⟩ := q
      intro hkeys hinner
      have hkeys' : f ∉ rest.map Prod.fst ∧ (rest.map Prod.fst).Nodup := by
        rw [List.map_cons, List.nodup_cons] at hkeys
        exact hkeys
      simp only [tmapPairs]
      rw [List.nodup_append]
      refine ⟨?_, ?_, ?_⟩
      · have hrw : (inner.map fun q => (f, q.1)) =
            (inner.map Prod.fst).map (fun x => (f, x)) := by
          simp [List.map_map]
        rw [hrw]
        apply List.Nodup.map
        · intro a b hab
          exact congrArg Prod.snd hab
        · exact hinner (f, inner) (List.mem_cons_self _ _)
      · exact ih hkeys'.2 (fun p hp => hinner p (List.mem_cons_of_mem _ hp))
      · intro x hx1 hx2
        obtain ⟨y, _, hxy⟩ := List.mem_map.mp hx1
        have h1 : x.1 = f := by
          rw [← hxy]
        have h2 : x.1 ∈ rest.map Prod.fst := tmapPairs_fst_mem rest x hx2
        rw [h1] at h2
        exact hkeys'.1 h2

/-- The grouping fold keeps the outer and every inner key list of
`transitionMap` duplicate-free. -/
theorem foldl_insert_wf (raws : List (String × String × String)) :
    ∀ tm : TransitionMap,
      (tm.map Prod.fst).Nodup → (∀ p ∈ tm, (p.2.map Prod.fst).Nodup) →
      ((raws.foldl (fun tm e => tmapInsert tm e.1 e.2.1 e.2.2) tm).map Prod.fst).Nodup
      ∧ (∀ p ∈ raws.foldl (fun tm e => tmapInsert tm e.1 e.2.1 e.2.2) tm,
          (p.2.map Prod.fst).Nodup) := by
  induction raws with
  | nil => exact fun tm h1 h2 => ⟨h1, h2⟩
  | cons r rest ih =>
      intro tm h1 h2
      simp only [List.foldl_cons]
      exact ih _ (tmapInsert_keys_nodup tm r.1 r.2.1 r.2.2 h1)
        (tmapInsert_inner_nodup r.1 r.2.1 r.2.2 tm h2)

/-- `appendEntry` adds exactly one label entry to one from-state's flattened
triples: the result is a permutation of the old triples with the new triple
appended. -/
theorem appendEntry_triples (f : String) (t : String) (e : String) :
    ∀ l : List (String × List String),
      List.Perm ((appendEntry l t e).flatMap fun q => q.2.map fun x => (f, q.1, x))
        ((l.flatMap fun q => q.2.map fun x => (f, q.1, x)) ++ [(f, t, e)]) := by
  intro l
  induction l with
  | nil =>
      simp [appendEntry]
  | cons p rest ih =>
      obtain ⟨t', vs⟩ := p
      by_cases ht : t' = t
      · subst ht
        simp only [appendEntry, eq_self_iff_true, ite_true, List.flatMap_cons,
          List.map_append, List.map_cons, List.map_nil, List.append_assoc,
          List.singleton_append]
        exact List.Perm.append_left _ (List.perm_append_singleton _ _).symm
      · simp only [appendEntry, if_neg ht, List.flatMap_cons, List.append_assoc]
        exact List.Perm.append_left _ ih

/-- `tmapInsert` adds exactly one triple to the `transitionMap`: its
flattened triples are a permutation of the old ones with the inserted
triple appended. -/
theorem tmapInsert_triples (f : String) (t : String) (e : String) :
    ∀ tm : TransitionMap,
      List.Perm (tmapTriples (tmapInsert tm f t e)) (tmapTriples tm ++ [(f, t, e)]) := by
  intro tm
  induction tm with
  | nil =>
      simp [tmapInsert, tmapTriples]
  | cons q rest ih =>
      obtain ⟨k, inner⟩ := q
      by_cases hk : k = f
      · subst hk
        simp only [tmapInsert, if_pos rfl, tmapTriples]
        refine List.Perm.trans
          (List.Perm.append_right _ (appendEntry_triples k t e inner)) ?_
        rw [List.append_assoc, List.append_assoc]
        exact List.Perm.append_left _ List.perm_append_comm
      · simp only [tmapInsert, if_neg hk, tmapTriples]
        rw [List.append_assoc]
        exact List.Perm.append_left _ ih

/-- The grouping fold loses and invents no label: the flattened triples of
the built `transitionMap` are a permutation of the accumulated triples plus
the raw edges fed in. -/
theorem foldl_insert_triples (raws : List (String × String × String)) :
    ∀ tm : TransitionMap,
      List.Perm (tmapTriples (raws.foldl (fun tm e => tmapInsert tm e.1 e.2.1 e.2.2) tm))
        (tmapTriples tm ++ raws) := by
  induction raws with
  | nil =>
      intro tm
      simp
  | cons r rest ih =>
      intro tm
      simp only [List.foldl_cons]
      refine List.Perm.trans (ih _) ?_
      refine List.Perm.trans
        (List.Perm.append_right rest (tmapInsert_triples r.1 r.2.1 r.2.2 tm)) ?_
      rw [List.append_assoc, List.singleton_append]

/-- C9: `ToMermaid` is the title header naming the machine, the
`[*] --> initialState` entry line, and the rendered edge lines; the rendered
`transitionMap` holds exactly one edge per distinct `(fromState, toState)`
pair (its pair list is duplicate-free), its label entries are exactly the
`action -> output` strings of the behavior's transitions, each filed under
its own pair (a permutation of the raw edges); and on the machine with the
two same-pair transitions `(x,S1,S1,o1)` and `(y,S1,S1,o2)` the diagram has
the single combined edge line. -/
theorem toMermaid_spec (m : Machine) :
    m.ToMermaid =
      "---\ntitle: " ++ m.GetName ++ "\n---\n" ++ " stateDiagram-v2\n"
        ++ "    [*] --> " ++ m.initialState ++ "\n"
        ++ renderEdges (buildTransitionMap m.behavior)
    ∧ (tmapPairs (buildTransitionMap m.behavior)).Nodup
    ∧ List.Perm (tmapTriples (buildTransitionMap m.behavior)) (rawEdges m.behavior)
    ∧ exGroup.ToMermaid =
        "---\ntitle: M\n---\n stateDiagram-v2\n    [*] --> S1\n    S1 --> S1 : x -> o1, y -> o2\n" := by
  refine ⟨rfl, ?_, ?_, by decide⟩
  · have hwf := foldl_insert_wf (rawEdges m.behavior) [] (by simp) (by simp)
    exact tmapPairs_nodup _ hwf.1 hwf.2
  · simpa [buildTransitionMap, tmapTriples] using
      foldl_insert_triples (rawEdges m.behavior) []

end Mealy
